import Mathlib

/-!
Verification of the Stoikov market-making strategy
(`src/TechCore/Strategies/HW_7/Stoikov_2.py`).

Shallow embedding conventions:
* Python floats are modelled as exact rationals (`ℚ`); timestamps are `ℚ`.
* `collections.deque` becomes `List` (append on the right, `popleft` = drop
  from the front).
* `None` sentinels become `Option`.
* `np.log` (a transcendental floating-point routine from an external
  library) is modelled as an abstract function `log : ℚ → ℚ` carried in the
  configuration; no theorem below inspects its values.
-/

namespace Stoikov

/-- Python's standard-library `bisect.bisect_right(edges, v)`, for a
sorted `edges` list: the insertion point after any entries equal to `v`,
i.e. the number of leading elements `≤ v`. -/
def bisectRight (edges : List ℚ) (v : ℚ) : ℕ :=
  (edges.takeWhile (fun e => decide (e ≤ v))).length

/-- The bucket lookup pattern `max(bisect.bisect_right(edges, v) - 1, 0)`
used by `get_X_i` (lines 143–144) and for `K_i` (line 162).  Natural-number
subtraction truncates at zero exactly like Python's `max(· - 1, 0)`. -/
def bucketIndex (edges : List ℚ) (v : ℚ) : ℕ :=
  max (bisectRight edges v - 1) 0

/-- Embedding of `self.I = np.linspace(0, 1, 10, endpoint=False)` (line 78): ten
equal-width imbalance edges `0, 0.1, …, 0.9`. -/
def Iedges : List ℚ :=
  [0, 1/10, 2/10, 3/10, 4/10, 5/10, 6/10, 7/10, 8/10, 9/10]

/-- Embedding of `self.S = np.linspace(0, 2, 20, endpoint=False)` (line 79): twenty
equal-width spread edges `0, 0.1, …, 1.9`. -/
def Sedges : List ℚ :=
  [0, 1/10, 2/10, 3/10, 4/10, 5/10, 6/10, 7/10, 8/10, 9/10,
   1, 11/10, 12/10, 13/10, 14/10, 15/10, 16/10, 17/10, 18/10, 19/10]

/-- Embedding of `self.K = np.linspace(-0.3, 0.3, 13, endpoint=True)` (line 77):
thirteen mid-price-delta edges `-0.3, -0.25, …, 0.3`. -/
def Kedges : List ℚ :=
  [-3/10, -1/4, -1/5, -3/20, -1/10, -1/20, 0,
   1/20, 1/10, 3/20, 1/5, 1/4, 3/10]

/-- Embedding of `Strategy.get_X_i` (lines 142–146): joint (imbalance, spread) state
index `I_i * self.S.size + S_i` with `self.S.size = 20`. -/
def get_X_i (I S : ℚ) : ℕ :=
  bucketIndex Iedges I * 20 + bucketIndex Sedges S

theorem bisectRight_le_length (edges : List ℚ) (v : ℚ) :
    bisectRight edges v ≤ edges.length := by
  induction edges with
  | nil => simp [bisectRight]
  | cons a l ih =>
      by_cases h : a ≤ v
      · simpa [bisectRight, List.takeWhile, h] using
          Nat.succ_le_succ (by simpa [bisectRight] using ih)
      · simp [bisectRight, List.takeWhile, h]

theorem bucketIndex_lt_length (edges : List ℚ) (v : ℚ) (h : edges ≠ []) :
    bucketIndex edges v < edges.length := by
  have hle := bisectRight_le_length edges v
  have hlen : 0 < edges.length := List.length_pos.mpr h
  unfold bucketIndex
  omega

/-- For a sorted list, an element is `≤ v` exactly when its index lies
before the `bisect_right` insertion point. -/
theorem bisectRight_iff (edges : List ℚ) (hs : edges.Sorted (· ≤ ·)) (v : ℚ) :
    ∀ j (hj : j < edges.length),
      (edges.get ⟨j, hj⟩ ≤ v ↔ j < bisectRight edges v) := by
  induction edges with
  | nil => intro j hj; simp at hj
  | cons a l ih =>
      rcases List.sorted_cons.mp hs with ⟨ha, hl⟩
      intro j hj
      by_cases h : a ≤ v
      · have hb : bisectRight (a :: l) v = (bisectRight l v) + 1 := by
          simp [bisectRight, List.takeWhile, h, Nat.add_comm]
        cases j with
        | zero => simpa [hb] using h
        | succ j =>
            have hj' : j < l.length := by simpa using hj
            have := ih hl j hj'
            simpa [hb, Nat.succ_lt_succ_iff] using this
      · have hb : bisectRight (a :: l) v = 0 := by
          simp [bisectRight, List.takeWhile, h]
        cases j with
        | zero => simpa [hb] using h
        | succ j =>
            have hj' : j < l.length := by simpa using hj
            have hmem : l.get ⟨j, hj'⟩ ∈ l := List.get_mem l j hj'
            have hav : a ≤ l.get ⟨j, hj'⟩ := ha _ hmem
            constructor
            · intro hle
              exact absurd (le_trans hav hle) h
            · intro hlt; simp [hb] at hlt

theorem bisectRight_mono (edges : List ℚ) {v w : ℚ} (hvw : v ≤ w) :
    bisectRight edges v ≤ bisectRight edges w := by
  induction edges with
  | nil => simp [bisectRight]
  | cons a l ih =>
      by_cases h : a ≤ v
      · have h' : a ≤ w := le_trans h hvw
        simpa [bisectRight, List.takeWhile, h, h'] using
          Nat.succ_le_succ (by simpa [bisectRight] using ih)
      · simp [bisectRight, List.takeWhile, h]

/-- The tail of `Iedges`, spelled out for the concrete witness. -/
def IedgesTail : List ℚ :=
  [1/10, 2/10, 3/10, 4/10, 5/10, 6/10, 7/10, 8/10, 9/10]

/-- C7: for every input value and every fixed sorted edge vector, the bucket
lookup `max(bisect_right(edges, v) - 1, 0)` (lines 142–146) returns the
largest index `i` with `edges[i] ≤ v`, returns `0` for any `v` below
`edges[0]`, always lies in `[0, edges.length)`, is monotone in the value,
and is deterministic. -/
theorem get_X_i_bucket_lookup (edges : List ℚ) (e0 : ℚ) (rest : List ℚ)
    (hed : edges = e0 :: rest) (hs : edges.Sorted (· ≤ ·)) (v w : ℚ) (hvw : v ≤ w) :
    bucketIndex edges v < edges.length ∧
    (v < e0 → bucketIndex edges v = 0) ∧
    (e0 ≤ v →
      edges.getD (bucketIndex edges v) 0 ≤ v ∧
      ∀ j (hj : j < edges.length), edges.get ⟨j, hj⟩ ≤ v → j ≤ bucketIndex edges v) ∧
    bucketIndex edges v ≤ bucketIndex edges w ∧
    bucketIndex edges v = bucketIndex edges v := by
  have hne : edges ≠ [] := by simp [hed]
  have hlen : 0 < edges.length := List.length_pos.mpr hne
  have hget0 : edges.get ⟨0, hlen⟩ = e0 := by simp [hed]
  have hiff := bisectRight_iff edges hs v
  refine ⟨bucketIndex_lt_length edges v hne, ?_, ?_, ?_, rfl⟩
  · intro hv
    have h0 : ¬ (edges.get ⟨0, hlen⟩ ≤ v) := by rw [hget0]; exact not_le.mpr hv
    have hb : ¬ (0 < bisectRight edges v) := fun hc => h0 ((hiff 0 hlen).mpr hc)
    have : bisectRight edges v = 0 := by omega
    simp [bucketIndex, this]
  · intro hv
    have h0 : edges.get ⟨0, hlen⟩ ≤ v := by rw [hget0]; exact hv
    have hbpos : 0 < bisectRight edges v := (hiff 0 hlen).mp h0
    have hble := bisectRight_le_length edges v
    have hidx : bucketIndex edges v = bisectRight edges v - 1 := by
      simp [bucketIndex]
    constructor
    · have hlt : bucketIndex edges v < edges.length := bucketIndex_lt_length edges v hne
      have hgd : edges.getD (bucketIndex edges v) 0 = edges.get ⟨bucketIndex edges v, hlt⟩ :=
        List.getD_eq_get edges 0 hlt
      rw [hgd]
      exact (hiff _ hlt).mpr (by omega)
    · intro j hj hjle
      have := (hiff j hj).mp hjle
      omega
  · have := bisectRight_mono edges hvw
    unfold bucketIndex
    omega

/-- Witness for C7 at the strategy's own imbalance edge vector
`np.linspace(0, 1, 10, endpoint=False)` and the value `1/4`. -/
theorem get_X_i_bucket_lookup_witness :
    (Iedges = 0 :: IedgesTail ∧ Iedges.Sorted (· ≤ ·) ∧ (1 : ℚ)/4 ≤ 1/3) ∧
    (bucketIndex Iedges (1/4) < Iedges.length ∧
     ((1 : ℚ)/4 < 0 → bucketIndex Iedges (1/4) = 0) ∧
     ((0 : ℚ) ≤ 1/4 →
       Iedges.getD (bucketIndex Iedges (1/4)) 0 ≤ 1/4 ∧
       ∀ j (hj : j < Iedges.length), Iedges.get ⟨j, hj⟩ ≤ 1/4 →
         j ≤ bucketIndex Iedges (1/4)) ∧
     bucketIndex Iedges (1/4) ≤ bucketIndex Iedges (1/3) ∧
     bucketIndex Iedges (1/4) = bucketIndex Iedges (1/4)) :=
  ⟨⟨rfl, by norm_num [Iedges, List.sorted_cons], by norm_num⟩,
    get_X_i_bucket_lookup Iedges 0 IedgesTail rfl
      (by norm_num [Iedges, List.sorted_cons]) (1/4) (1/3) (by norm_num)⟩

/-!
## Transition Model Estimator (`estimate_transition_probabilities`, lines 148–181)

The estimator consumes the chronological list of `(I, S, M)` observations
accumulated in `cheat_logs` and walks consecutive pairs (the dataframe
`shift(-1)` plus `dropna`).  For each pair it increments the whole row
`X_i` of the three `_total` matrices by 1 and a single cell of one of the
`_success` matrices, then divides elementwise and gap-fills with pandas
`bfill().ffill()`.

Because every `_total` increment targets a full row, a row of
`Q_success / Q_total` is `NaN` exactly when its state never occurs as a
source (0/0 in every column), and otherwise contains no `NaN`.  Pandas
fills column-by-column, but with whole-`NaN` rows this equals copying the
nearest row below with data (`bfill`), else the nearest row above
(`ffill`) — which is how `fillSrc` is defined.  The never-observed /
all-rows-empty case (Python would keep `NaN` rows) is mapped to `0`.
-/

/-- An (I, S, M) triple as logged by `cheat_activ`. -/
abbrev Obs := ℚ × ℚ × ℚ

/-- Consecutive pairs of observations: `shift(-1)` + `dropna` (lines 150–153). -/
def obsPairs (obs : List Obs) : List (Obs × Obs) := obs.zip obs.tail

/-- Source joint state `X_i` of a pair (line 158). -/
def pairX (p : Obs × Obs) : ℕ := get_X_i p.1.1 p.1.2.1

/-- Destination joint state `X_i_next` of a pair (line 159). -/
def pairXnext (p : Obs × Obs) : ℕ := get_X_i p.2.1 p.2.2.1

/-- The `M_next == M` test of line 169. -/
def pairNoMove (p : Obs × Obs) : Bool := decide (p.2.2.2 = p.1.2.2)

/-- Delta bucket `K_i = max(bisect_right(K, dM) - 1, 0)` (line 162). -/
def pairK (p : Obs × Obs) : ℕ := bucketIndex Kedges (p.2.2.2 - p.1.2.2)

/-- Row count shared by `Q_total[x]`, `T_total[x]` and `R_total[x]`: each
pair increments the whole row `X_i` of all three by one (lines 164–168). -/
def rowCount (obs : List Obs) (x : ℕ) : ℕ :=
  (obsPairs obs).countP (fun p => decide (pairX p = x))

/-- Counter `Q_success[x][y]` (line 170): pairs from `x` to `y` with no price move. -/
def Qsucc (obs : List Obs) (x y : ℕ) : ℕ :=
  (obsPairs obs).countP
    (fun p => (decide (pairX p = x) && pairNoMove p) && decide (pairXnext p = y))

/-- Counter `T_success[x][y]` (line 172): pairs from `x` to `y` with a price move. -/
def Tsucc (obs : List Obs) (x y : ℕ) : ℕ :=
  (obsPairs obs).countP
    (fun p => (decide (pairX p = x) && !pairNoMove p) && decide (pairXnext p = y))

/-- Counter `R_success[x][j]` (line 165): pairs from `x` whose delta falls in bucket `j`. -/
def Rsucc (obs : List Obs) (x j : ℕ) : ℕ :=
  (obsPairs obs).countP
    (fun p => decide (pairX p = x) && decide (pairK p = j))

/-- The source row used for row `x` after `bfill().ffill()` (lines 175/178/181):
the nearest row at or below `x` in display order (index ≥ x) holding data,
else the nearest row above; `none` when no row was ever observed. -/
def fillSrc (obs : List Obs) (x : ℕ) : Option ℕ :=
  match (List.range' x (200 - x)).find? (fun s => decide (0 < rowCount obs s)) with
  | some s => some s
  | none => ((List.range (x + 1)).reverse).find? (fun s => decide (0 < rowCount obs s))

/-- Entry `(x, y)` of the gap-filled `Q` matrix. -/
def Qfill (obs : List Obs) (x y : ℕ) : ℚ :=
  match fillSrc obs x with
  | some s => (Qsucc obs s y : ℚ) / (rowCount obs s : ℚ)
  | none => 0

/-- Entry `(x, y)` of the gap-filled `T` matrix. -/
def Tfill (obs : List Obs) (x y : ℕ) : ℚ :=
  match fillSrc obs x with
  | some s => (Tsucc obs s y : ℚ) / (rowCount obs s : ℚ)
  | none => 0

/-- Entry `(x, j)` of the gap-filled `R` matrix. -/
def Rfill (obs : List Obs) (x j : ℕ) : ℚ :=
  match fillSrc obs x with
  | some s => (Rsucc obs s j : ℚ) / (rowCount obs s : ℚ)
  | none => 0

/-- Sum of row `x` of the gap-filled `Q` over all `nm = 200` next states. -/
def rowSumQ (obs : List Obs) (x : ℕ) : ℚ := ∑ y ∈ Finset.range 200, Qfill obs x y

/-- Sum of row `x` of the gap-filled `T` over all `nm = 200` next states. -/
def rowSumT (obs : List Obs) (x : ℕ) : ℚ := ∑ y ∈ Finset.range 200, Tfill obs x y

/-- Sum of row `x` of the gap-filled `R` over the `k = 13` delta buckets. -/
def rowSumR (obs : List Obs) (x : ℕ) : ℚ := ∑ j ∈ Finset.range 13, Rfill obs x j

theorem countP_and_not_partition {α : Type*} (l : List α) (p q : α → Bool) :
    l.countP (fun a => p a && q a) + l.countP (fun a => p a && !q a) = l.countP p := by
  induction l with
  | nil => simp
  | cons a l ih =>
      have hadd := ih
      simp only [List.countP_cons]
      by_cases hp : p a
      · by_cases hq : q a
        · simp [hp, hq]; omega
        · simp [hp, hq]; omega
      · simp [hp]; omega

theorem sum_range_countP_eq {α : Type*} (l : List α) (p : α → Bool) (f : α → ℕ)
    (n : ℕ) (hf : ∀ a, p a = true → f a < n) :
    ∑ y ∈ Finset.range n, l.countP (fun a => p a && decide (f a = y)) = l.countP p := by
  induction l with
  | nil => simp
  | cons a l ih =>
      simp only [List.countP_cons]
      rw [Finset.sum_add_distrib, ih]
      by_cases hp : p a
      · have hfa : f a < n := hf a hp
        have hpt : ∀ y ∈ Finset.range n,
            (if (p a && decide (f a = y)) = true then 1 else 0) =
              if f a = y then 1 else 0 := by
          intro y _; simp [hp]
        rw [Finset.sum_congr rfl hpt, Finset.sum_ite_eq]
        simp [Finset.mem_range.mpr hfa, hp]
      · have hp' : p a = false := by simpa using hp
        simp [hp']

theorem get_X_i_lt (I S : ℚ) : get_X_i I S < 200 := by
  have h1 : bucketIndex Iedges I < 10 := by
    have := bucketIndex_lt_length Iedges I (by simp [Iedges])
    simpa [Iedges] using this
  have h2 : bucketIndex Sedges S < 20 := by
    have := bucketIndex_lt_length Sedges S (by simp [Sedges])
    simpa [Sedges] using this
  unfold get_X_i
  omega

theorem pairK_lt (p : Obs × Obs) : pairK p < 13 := by
  have := bucketIndex_lt_length Kedges (p.2.2.2 - p.1.2.2) (by simp [Kedges])
  simpa [Kedges, pairK] using this

theorem rowCount_pos_lt (obs : List Obs) (x : ℕ) (h : 0 < rowCount obs x) :
    x < 200 := by
  rw [rowCount, List.countP_pos] at h
  obtain ⟨p, _, hp⟩ := h
  have : pairX p = x := by simpa using hp
  subst this
  exact get_X_i_lt _ _

theorem fillSrc_valid (obs : List Obs) (x : ℕ)
    (h : ∃ x0, 0 < rowCount obs x0) :
    ∃ s, fillSrc obs x = some s ∧ 0 < rowCount obs s := by
  obtain ⟨x0, hx0⟩ := h
  have hx0lt : x0 < 200 := rowCount_pos_lt obs x0 hx0
  unfold fillSrc
  cases hfind : (List.range' x (200 - x)).find? (fun s => decide (0 < rowCount obs s)) with
  | some s =>
      refine ⟨s, rfl, ?_⟩
      simpa using List.find?_some hfind
  | none =>
      have hx0mem : x0 ∈ (List.range (x + 1)).reverse := by
        rw [List.mem_reverse, List.mem_range]
        by_cases hx : x < 200
        · have hnot : x0 ∉ List.range' x (200 - x) := by
            intro hm
            have := List.find?_eq_none.mp hfind x0 hm
            simp [hx0] at this
          rw [List.mem_range'_1] at hnot
          omega
        · omega
      have hsome : ((List.range (x + 1)).reverse.find?
          (fun s => decide (0 < rowCount obs s))).isSome := by
        rw [List.find?_isSome]
        exact ⟨x0, hx0mem, by simpa using hx0⟩
      obtain ⟨s, hs⟩ := Option.isSome_iff_exists.mp hsome
      refine ⟨s, by simp [hs], ?_⟩
      simpa using List.find?_some hs

/-- C1 (amended): after gap-filling, every row of `R` sums to 1 over the 13
delta-buckets, and for every row the sums of `Q` and `T` add to 1 —
`Q_total` and `T_total` are both incremented on every observed pair while
only one of `Q_success`/`T_success` receives the event (lines 164–172), so
a row of `Q` alone sums to the empirical fraction of no-move transitions,
not to 1.  Rows are well defined whenever at least one state was observed. -/
theorem transition_row_sums (obs : List Obs)
    (h : ∃ x0, 0 < rowCount obs x0) (x : ℕ) :
    rowSumR obs x = 1 ∧ rowSumQ obs x + rowSumT obs x = 1 := by
  obtain ⟨s, hs, hpos⟩ := fillSrc_valid obs x h
  have hc : ((rowCount obs s : ℚ)) ≠ 0 := by
    exact_mod_cast Nat.pos_iff_ne_zero.mp hpos
  constructor
  · have hsum : ∑ j ∈ Finset.range 13, Rsucc obs s j = rowCount obs s := by
      unfold Rsucc rowCount
      exact sum_range_countP_eq (obsPairs obs) (fun p => decide (pairX p = s))
        pairK 13 (fun a _ => pairK_lt a)
    unfold rowSumR Rfill
    rw [hs]
    rw [← Finset.sum_div]
    rw [← Nat.cast_sum, hsum]
    exact div_self hc
  · have hq : ∑ y ∈ Finset.range 200, Qsucc obs s y =
        (obsPairs obs).countP (fun p => decide (pairX p = s) && pairNoMove p) := by
      unfold Qsucc
      exact sum_range_countP_eq (obsPairs obs)
        (fun p => decide (pairX p = s) && pairNoMove p)
        pairXnext 200 (fun a ha => by
          have : pairXnext a < 200 := get_X_i_lt _ _
          exact this)
    have ht : ∑ y ∈ Finset.range 200, Tsucc obs s y =
        (obsPairs obs).countP (fun p => decide (pairX p = s) && !pairNoMove p) := by
      unfold Tsucc
      exact sum_range_countP_eq (obsPairs obs)
        (fun p => decide (pairX p = s) && !pairNoMove p)
        pairXnext 200 (fun a ha => get_X_i_lt _ _)
    have hqt : (∑ y ∈ Finset.range 200, Qsucc obs s y) +
        (∑ y ∈ Finset.range 200, Tsucc obs s y) = rowCount obs s := by
      rw [hq, ht]
      exact countP_and_not_partition (obsPairs obs)
        (fun p => decide (pairX p = s)) pairNoMove
    unfold rowSumQ rowSumT Qfill Tfill
    rw [hs]
    rw [← Finset.sum_div, ← Finset.sum_div]
    rw [← Nat.cast_sum, ← Nat.cast_sum]
    rw [div_add_div_same, ← Nat.cast_add, hqt]
    exact div_self hc

/-- A minimal two-observation history: state (I=0, S=0) observed twice,
with the mid-price moving from 0 to 1. -/
def obsTwo : List Obs := [(0, 0, 0), (0, 0, 1)]

theorem get_X_i_zero : get_X_i 0 0 = 0 := by
  norm_num [get_X_i, bucketIndex, bisectRight, Iedges, Sedges, List.takeWhile]

theorem obsPairs_obsTwo : obsPairs obsTwo = [((0, 0, 0), (0, 0, 1))] := by
  simp [obsPairs, obsTwo]

theorem rowCount_obsTwo : rowCount obsTwo 0 = 1 := by
  rw [rowCount, obsPairs_obsTwo]
  simp [List.countP_cons, pairX, get_X_i_zero]

theorem Qsucc_obsTwo (y : ℕ) : Qsucc obsTwo 0 y = 0 := by
  rw [Qsucc, obsPairs_obsTwo]
  norm_num [List.countP_cons, pairNoMove]

theorem fillSrc_obsTwo : fillSrc obsTwo 0 = some 0 := by
  unfold fillSrc
  rw [show (200 : ℕ) - 0 = 200 from rfl]
  rw [show List.range' 0 200 = 0 :: List.range' 1 199 from rfl]
  rw [List.find?_cons_of_pos _ (by simp [rowCount_obsTwo])]

/-- C1 counterexample: for the history `obsTwo` the model construction
succeeds (state 0 is observed), yet row 0 of the gap-filled `Q` sums to 0,
not 1 — the single observed transition moves the price, so it is counted in
`T_success` while `Q_total` is still incremented (lines 167–172). -/
theorem transition_row_sums_counterexample :
    rowSumQ obsTwo 0 = 0 ∧ rowSumQ obsTwo 0 ≠ 1 ∧ 0 < rowCount obsTwo 0 := by
  have hz : rowSumQ obsTwo 0 = 0 := by
    unfold rowSumQ
    refine Finset.sum_eq_zero ?_
    intro y _
    unfold Qfill
    rw [fillSrc_obsTwo]
    simp [Qsucc_obsTwo]
  refine ⟨hz, by rw [hz]; norm_num, by rw [rowCount_obsTwo]; norm_num⟩

/-- Witness for the amended C1 at the concrete history `obsTwo`. -/
theorem transition_row_sums_witness :
    (∃ x0, 0 < rowCount obsTwo x0) ∧
    (rowSumR obsTwo 0 = 1 ∧ rowSumQ obsTwo 0 + rowSumT obsTwo 0 = 1) :=
  ⟨⟨0, by rw [rowCount_obsTwo]; norm_num⟩,
   transition_row_sums obsTwo ⟨0, by rw [rowCount_obsTwo]; norm_num⟩ 0⟩

/-!
## Price-Adjustment Solver (`run`, lines 346–354)

The solver computes `Qi = np.linalg.inv(1 - self.Q)`, `G = Qi @ self.R @
self.K.T`, `B = Qi @ self.T`, then runs the 20-iteration fixed-point loop.
In NumPy, `1 - self.Q` broadcasts the scalar `1` over the 200×200 array:
the matrix being inverted is the all-ones matrix minus `Q` elementwise,
NOT the identity minus `Q`.  `np.linalg.inv` raises `LinAlgError` on a
singular argument; a successful inversion over a field equals
`det⁻¹ • adjugate`, which is how `npInv` models it.
-/

/-- The exact matrix inverse `det⁻¹ • adjugate`, the value `np.linalg.inv`
computes when its argument is nonsingular (it raises `LinAlgError`
otherwise, so `npInv` is only meaningful where the determinant is
nonzero). -/
def npInv {n : ℕ} (M : Matrix (Fin n) (Fin n) ℚ) : Matrix (Fin n) (Fin n) ℚ :=
  M.det⁻¹ • M.adjugate

/-- The expression `1 - self.Q` as NumPy evaluates it (line 346): elementwise scalar
broadcast, i.e. the all-ones matrix minus `Q`. -/
def codeResolvent {n : ℕ} (Q : Matrix (Fin n) (Fin n) ℚ) :
    Matrix (Fin n) (Fin n) ℚ :=
  Matrix.of fun i j => 1 - Q i j

/-- The fixed-point loop of lines 350–354: starting from
`(product, adjustment)`, each iteration does
`adjustment += product @ G; product = product @ B`. -/
def adjLoop {n : ℕ} (B : Matrix (Fin n) (Fin n) ℚ) (G : Fin n → ℚ) :
    ℕ → Matrix (Fin n) (Fin n) ℚ × (Fin n → ℚ) →
      Matrix (Fin n) (Fin n) ℚ × (Fin n → ℚ)
  | 0, s => s
  | m + 1, s => adjLoop B G m (s.1 * B, s.2 + s.1.mulVec G)

/-- Embedding of `self.K` as a vector for `G = Qi @ self.R @ self.K.T` (line 347). -/
def Kvec : Fin 13 → ℚ := fun i => Kedges.getD i 0

/-- The micro-price adjustment exactly as `run` computes it
(lines 346–354), with `np.linalg.inv (1 - self.Q)` modelled by
`npInv (codeResolvent Q)`. -/
def micro_price_adjustment (Q : Matrix (Fin 200) (Fin 200) ℚ)
    (R : Matrix (Fin 200) (Fin 13) ℚ) (T : Matrix (Fin 200) (Fin 200) ℚ) :
    Fin 200 → ℚ :=
  let Qi := npInv (codeResolvent Q)
  let G := Qi.mulVec (R.mulVec Kvec)
  let B := Qi * T
  (adjLoop B G 20 (1, 0)).2

/-- Modelled from the spec: the Price-Adjustment Solver the specification
describes, with `Qi = (I - Q)⁻¹` where `I` is the identity matrix
(`1 - Q` in the matrix ring), followed by the same `G`, `B` and
20-iteration loop. -/
def specMicroAdjustment (Q : Matrix (Fin 200) (Fin 200) ℚ)
    (R : Matrix (Fin 200) (Fin 13) ℚ) (T : Matrix (Fin 200) (Fin 200) ℚ) :
    Fin 200 → ℚ :=
  let Qi := npInv (1 - Q)
  let G := Qi.mulVec (R.mulVec Kvec)
  let B := Qi * T
  (adjLoop B G 20 (1, 0)).2

theorem adjLoop_zero_B {n : ℕ} (G : Fin n → ℚ) (m : ℕ) (a : Fin n → ℚ) :
    (adjLoop (0 : Matrix (Fin n) (Fin n) ℚ) G m (0, a)).2 = a := by
  induction m generalizing a with
  | zero => rfl
  | succ m ih =>
      show (adjLoop 0 G m ((0 : Matrix (Fin n) (Fin n) ℚ) * 0,
        a + Matrix.mulVec 0 G)).2 = a
      rw [mul_zero, Matrix.zero_mulVec, add_zero]
      exact ih a

theorem adjLoop_neumann {n : ℕ} (B : Matrix (Fin n) (Fin n) ℚ) (G : Fin n → ℚ)
    (m : ℕ) (P : Matrix (Fin n) (Fin n) ℚ) (a : Fin n → ℚ) :
    (adjLoop B G m (P, a)).2 = a + ∑ i ∈ Finset.range m, (P * B ^ i).mulVec G := by
  induction m generalizing P a with
  | zero => simp [adjLoop]
  | succ m ih =>
      show (adjLoop B G m (P * B, a + P.mulVec G)).2 = _
      rw [ih, Finset.sum_range_succ']
      have hcomm : ∀ i ∈ Finset.range m,
          ((P * B) * B ^ i).mulVec G = (P * B ^ (i + 1)).mulVec G := by
        intro i _
        rw [mul_assoc, ← pow_succ']
      rw [Finset.sum_congr rfl hcomm]
      simp only [pow_zero, mul_one]
      abel

/-- C2 (code bug): at the spec's own boundary input `Q = 0`, `T = 0`
the code inverts `1 - self.Q`, which NumPy broadcasts to the all-ones
matrix minus `Q` — a singular matrix (determinant 0), so
`np.linalg.inv` raises `LinAlgError` instead of producing
`adjustment = R @ K`.  The solver the claim describes — `Qi = (I − Q)⁻¹`
with the identity matrix — does reduce to `R @ K` there, and the
20-iteration loop is indeed the truncated Neumann sum
`∑_{i<20} B^i @ G`. -/
theorem price_adjustment_solver_bug :
    (codeResolvent (0 : Matrix (Fin 200) (Fin 200) ℚ)).det = 0 ∧
    (∀ R : Matrix (Fin 200) (Fin 13) ℚ,
      specMicroAdjustment 0 R 0 = R.mulVec Kvec) ∧
    (∀ (B : Matrix (Fin 200) (Fin 200) ℚ) (G : Fin 200 → ℚ),
      (adjLoop B G 20 (1, 0)).2 = ∑ i ∈ Finset.range 20, (B ^ i).mulVec G) := by
  refine ⟨?_, ?_, ?_⟩
  · have hij : (codeResolvent (0 : Matrix (Fin 200) (Fin 200) ℚ)) 0 =
        (codeResolvent (0 : Matrix (Fin 200) (Fin 200) ℚ)) 1 := rfl
    exact Matrix.det_zero_of_row_eq (by decide) hij
  · intro R
    show (adjLoop (npInv (1 - 0) * 0) ((npInv (1 - 0)).mulVec (R.mulVec Kvec))
      20 (1, 0)).2 = R.mulVec Kvec
    have h1 : npInv ((1 : Matrix (Fin 200) (Fin 200) ℚ) - 0) = 1 := by
      rw [sub_zero]
      simp [npInv, Matrix.det_one, Matrix.adjugate_one]
    rw [h1, mul_zero, Matrix.one_mulVec, adjLoop_neumann]
    rw [Finset.sum_range_succ']
    simp [zero_pow, Matrix.zero_mulVec, Matrix.one_mulVec]
  · intro B G
    rw [adjLoop_neumann]
    simp [one_mul]

/-!
## Online loop data model (`Strategy.run`, lines 245–396)

`RunState` merges the mutable `Strategy` attributes with the local
variables of `run` (best bid/ask, quantities, `prev_time`, the
`ongoing_orders` map, and a fresh-order-id counter).  The simulator is an
external collaborator: a tick is modelled by its receive timestamp and its
list of updates, a market-data update by the best bid/ask and quantities
it establishes (the external `update_best_positions` helper) plus an
optional embedded trade, and `sim.place_order` by the construction of an
`Order` carrying a fresh id — all modelled from the spec's interface
section.  The `ongoing_orders` dict is an association list with unique
keys, so removing a key is `List.filter`.
-/

structure Order where
  order_id : ℕ
  side : String
  size : ℚ
  price : ℚ
  place_ts : ℚ
deriving DecidableEq

structure OwnTrade where
  order_id : ℕ
  side : String
  price : ℚ
  size : ℚ
  receive_ts : ℚ
deriving DecidableEq

/-- One element of a tick's update list.  `md` carries the best bid/ask
and quantities after `update_best_positions`, the update's `receive_ts`,
and the optional embedded trade as `(trade.receive_ts, trade.size)` — the
only trade fields `run` reads (lines 298–300). -/
inductive Update where
  | md (best_bid best_ask ask_quantity bid_quantity receive_ts : ℚ)
      (trade : Option (ℚ × ℚ))
  | own (t : OwnTrade)
deriving DecidableEq

/-- Constructor parameters of `Strategy` used by the online loop, plus the
transition model matrices built at `__init__` time. -/
structure Cfg where
  delay : ℚ
  risk_koef : ℚ
  time_oi : ℚ
  avg_sum_oi : ℚ
  avg_time_oi : ℚ
  avg_volatility : ℚ
  volatility_record_cooldown : ℚ
  volatility_horizon : ℕ
  order_intensity_min_samples : ℕ
  log : ℚ → ℚ
  Q : Matrix (Fin 200) (Fin 200) ℚ
  R : Matrix (Fin 200) (Fin 13) ℚ
  T : Matrix (Fin 200) (Fin 200) ℚ

structure RunState where
  asset_position : ℚ
  usd_position : ℚ
  pnl : ℚ
  midprice : ℚ
  total_liq : ℚ
  volatility_time_records : List ℚ
  volatility_price_records : List ℚ
  order_intensity_time_records : List ℚ
  order_intensity_size_records : List ℚ
  volatility : Option ℚ
  scaled_order_intensity : Option ℚ
  best_bid : ℚ
  best_ask : ℚ
  ask_quantity : ℚ
  bid_quantity : ℚ
  prev_time : ℚ
  ongoing_orders : List (ℕ × Order)
  next_order_id : ℕ

/-- The value `np.array(l).std() ** 2`: the population variance (mean of squared
deviations from the mean).  NumPy returns `NaN` on an empty array; with
`ℚ`'s zero-division convention this definition returns `0` there instead —
no theorem below relies on the empty case. -/
def popVar (l : List ℚ) : ℚ :=
  ((l.map (fun x => (x - l.sum / l.length) ^ 2)).sum) / l.length

/-- Embedding of `Strategy.update_volatility` (lines 220–230): cooldown-gated append of
the sampled best ask, eviction from the front down to the horizon (the
`while` loop pops both deques while the time deque exceeds the horizon),
then `volatility = std(prices)**2 / avg_volatility`. -/
def update_volatility (cfg : Cfg) (st : RunState) (best_ask receive_ts : ℚ) :
    RunState :=
  let prevT := st.volatility_time_records.getLastD 0
  let times := if cfg.volatility_record_cooldown < receive_ts - prevT
    then st.volatility_time_records ++ [receive_ts]
    else st.volatility_time_records
  let prices := if cfg.volatility_record_cooldown < receive_ts - prevT
    then st.volatility_price_records ++ [best_ask]
    else st.volatility_price_records
  let pops := times.length - cfg.volatility_horizon
  { st with
    volatility_time_records := times.drop pops,
    volatility_price_records := prices.drop pops,
    volatility := some (popVar (prices.drop pops) / cfg.avg_volatility) }

/-- The `while` loop of lines 234–236: pop both deques from the front
while the retained time span (last minus first) exceeds the window. -/
def trimOI (window : ℚ) : List ℚ → List ℚ → List ℚ × List ℚ
  | t :: ts, sizes =>
      if window < ts.getLastD t - t then trimOI window ts sizes.tail
      else (t :: ts, sizes)
  | [], sizes => ([], sizes)

/-- Embedding of `Strategy.update_order_intensity` (lines 232–243): nothing happens
until strictly more than `order_intensity_min_samples` records exist; then
the window is trimmed and the estimate set to
`(total_sum / avg_sum_oi) / (total_time / avg_time_oi)`. -/
def update_order_intensity (cfg : Cfg) (st : RunState) : RunState :=
  if cfg.order_intensity_min_samples < st.order_intensity_time_records.length then
    let tr := trimOI cfg.time_oi st.order_intensity_time_records
      st.order_intensity_size_records
    let total_time := tr.1.getLastD 0 - tr.1.headD 0
    let total_sum := tr.2.sum
    { st with
      order_intensity_time_records := tr.1,
      order_intensity_size_records := tr.2,
      scaled_order_intensity :=
        some ((total_sum / cfg.avg_sum_oi) / (total_time / cfg.avg_time_oi)) }
  else st

/-- Per-update processing of the `for update in updates` body
(lines 284–329).  A market-data update refreshes the best positions, sets
the mid-price, unconditionally appends (midprice, receive_ts) to the
volatility deques (lines 291–296) and, when it embeds a trade, appends to
the order-intensity deques; an own trade appends to the order-intensity
deques, drops the order from `ongoing_orders`, updates the positions by
side, accumulates `total_liq` and recomputes
`pnl = asset_position * midprice + usd_position`. -/
def applyUpdate (st : RunState) (u : Update) : RunState :=
  match u with
  | .md bb ba aq bq ts tr =>
      let mid := (ba + bb) / 2
      let st := { st with
        best_bid := bb, best_ask := ba, ask_quantity := aq, bid_quantity := bq,
        midprice := mid,
        volatility_price_records := st.volatility_price_records ++ [mid],
        volatility_time_records := st.volatility_time_records ++ [ts] }
      match tr with
      | some (tts, tsz) => { st with
          order_intensity_time_records := st.order_intensity_time_records ++ [tts],
          order_intensity_size_records := st.order_intensity_size_records ++ [tsz] }
      | none => st
  | .own t =>
      let st := { st with
        order_intensity_time_records := st.order_intensity_time_records ++ [t.receive_ts],
        order_intensity_size_records := st.order_intensity_size_records ++ [t.size],
        ongoing_orders := st.ongoing_orders.filter
          (fun p => decide (p.1 ≠ t.order_id)) }
      let st := if t.side = "ASK" then
          { st with asset_position := st.asset_position - t.size,
                    usd_position := st.usd_position + t.size * t.price }
        else
          { st with asset_position := st.asset_position + t.size,
                    usd_position := st.usd_position - t.size * t.price }
      { st with total_liq := st.total_liq + t.size * t.price,
                pnl := st.asset_position * st.midprice + st.usd_position }

/-- The quoting branch of `run` (lines 331–386).  When at least `delay`
has elapsed since `prev_time`, the timer is reset, the two estimators are
refreshed, and — only if both `self.volatility` and
`self.scaled_order_intensity` are set — the indifference price, spread and
the paired bid/ask orders are produced.  `sim.place_order` is modelled
from the spec as constructing an order with a fresh id; the bid is placed
before the ask.  Returns the new state and the orders placed this cycle. -/
def quoteStep (cfg : Cfg) (st : RunState) (receive_ts : ℚ) :
    RunState × List Order :=
  if cfg.delay ≤ receive_ts - st.prev_time then
    let st := { st with prev_time := receive_ts }
    let midprice := (st.best_bid + st.best_ask) / 2
    let st := update_volatility cfg st st.best_ask receive_ts
    let st := update_order_intensity cfg st
    match st.volatility, st.scaled_order_intensity with
    | some vol, some oi =>
        let adj := micro_price_adjustment cfg.Q cfg.R cfg.T
        let I := st.bid_quantity / (st.bid_quantity + st.ask_quantity)
        let S := (st.best_ask - st.best_bid) / 2
        let Xi := get_X_i I S
        let adjX := if h : Xi < 200 then adj ⟨Xi, h⟩ else 0
        let indifference_price := midprice + adjX
        let my_spread := cfg.risk_koef * vol +
          2 / cfg.risk_koef * cfg.log (1 + cfg.risk_koef / oi)
        let ask_place := indifference_price + my_spread / 2
        let bid_place := indifference_price - my_spread / 2
        let bid_order : Order := ⟨st.next_order_id, "BID", 1/1000, bid_place, receive_ts⟩
        let ask_order : Order := ⟨st.next_order_id + 1, "ASK", 1/1000, ask_place, receive_ts⟩
        ({ st with
            ongoing_orders := st.ongoing_orders ++
              [(bid_order.order_id, bid_order), (ask_order.order_id, ask_order)],
            next_order_id := st.next_order_id + 2 },
         [bid_order, ask_order])
    | _, _ => (st, [])
  else (st, [])

/-- The stale-order test of line 390: `order.place_ts < receive_ts - delay`. -/
def isStale (delay receive_ts : ℚ) (o : Order) : Bool :=
  decide (o.place_ts < receive_ts - delay)

/-- The cancellation scan of lines 388–394: every stale resting order is
canceled (via `sim.cancel_order`) and removed from `ongoing_orders`.
Returns the surviving map and the canceled ids. -/
def cancelScan (delay receive_ts : ℚ) (ongoing : List (ℕ × Order)) :
    List (ℕ × Order) × List ℕ :=
  (ongoing.filter (fun p => ! isStale delay receive_ts p.2),
   (ongoing.filter (fun p => isStale delay receive_ts p.2)).map Prod.fst)

/-- One iteration of the `while True` loop of `run` (lines 277–394) for a
tick carrying `(receive_ts, updates)`: drain the updates, run the quoting
branch, then the unconditional cancellation scan.  Returns the new state
and the orders placed during the tick. -/
def tickStep (cfg : Cfg) (st : RunState) (receive_ts : ℚ)
    (updates : List Update) : RunState × List Order :=
  let st := updates.foldl applyUpdate st
  let qp := quoteStep cfg st receive_ts
  ({ qp.1 with
      ongoing_orders := (cancelScan cfg.delay receive_ts qp.1.ongoing_orders).1 },
   qp.2)

/-- A blank run state: all numeric fields 0, empty deques, unset
estimates, no resting orders. -/
def st0 : RunState :=
  { asset_position := 0, usd_position := 0, pnl := 0, midprice := 0,
    total_liq := 0,
    volatility_time_records := [], volatility_price_records := [],
    order_intensity_time_records := [], order_intensity_size_records := [],
    volatility := none, scaled_order_intensity := none,
    best_bid := 0, best_ask := 0, ask_quantity := 1, bid_quantity := 1,
    prev_time := 0, ongoing_orders := [], next_order_id := 0 }

/-- A concrete configuration used by the witnesses: delay 5, cooldown 10,
horizon 5, min 2 order-intensity samples, zero model matrices. -/
def cfg0 : Cfg :=
  { delay := 5, risk_koef := 1, time_oi := 100, avg_sum_oi := 1,
    avg_time_oi := 1, avg_volatility := 1,
    volatility_record_cooldown := 10, volatility_horizon := 5,
    order_intensity_min_samples := 2, log := fun _ => 0,
    Q := 0, R := 0, T := 0 }

/-- A resting bid placed at time 0. -/
def ordEx : Order := ⟨7, "BID", 1/1000, 100, 0⟩

/-- C4 counterexample: with delay `D = 5` and an order placed at `T = 0`,
the tick at `receive_ts = 5` satisfies `receive_ts ≥ T + D`, yet the scan
(line 390, strict `place_ts < receive_ts - delay`) keeps the order and
cancels nothing. -/
theorem stale_cancellation_counterexample :
    (cancelScan 5 5 [(7, ordEx)]).1 = [(7, ordEx)] ∧
    (cancelScan 5 5 [(7, ordEx)]).2 = [] ∧
    ordEx.place_ts + 5 ≤ (5 : ℚ) := by
  refine ⟨?_, ?_, by norm_num [ordEx]⟩ <;>
    norm_num [cancelScan, isStale, ordEx]

/-- C4 (amended): an order placed at `T` with delay `D` is canceled
exactly when the tick timestamp is strictly greater than `T + D` (line
390 uses strict `<`), never earlier; the scan runs unconditionally on
every tick, after update draining and the quoting branch, independent of
the quoting cadence. -/
theorem stale_cancellation (delay receive_ts : ℚ) (ongoing : List (ℕ × Order))
    (idp : ℕ × Order) (i : ℕ) (cfg : Cfg) (st : RunState) (updates : List Update) :
    (idp ∈ (cancelScan delay receive_ts ongoing).1 ↔
      idp ∈ ongoing ∧ ¬ (idp.2.place_ts + delay < receive_ts)) ∧
    (i ∈ (cancelScan delay receive_ts ongoing).2 ↔
      ∃ o : Order, (i, o) ∈ ongoing ∧ o.place_ts + delay < receive_ts) ∧
    (tickStep cfg st receive_ts updates).1.ongoing_orders =
      (cancelScan cfg.delay receive_ts
        (quoteStep cfg (updates.foldl applyUpdate st) receive_ts).1.ongoing_orders).1 := by
  have hiff : ∀ o : Order, (isStale delay receive_ts o = true ↔
      o.place_ts + delay < receive_ts) := by
    intro o
    simp only [isStale, decide_eq_true_eq]
    constructor
    · intro hlt; linarith
    · intro hlt; linarith
  refine ⟨?_, ?_, rfl⟩
  · rw [cancelScan]
    simp only [List.mem_filter, Bool.not_eq_true']
    constructor
    · rintro ⟨hm, hs⟩
      refine ⟨hm, fun hlt => ?_⟩
      rw [← hiff idp.2] at hlt
      rw [hs] at hlt
      exact Bool.false_ne_true hlt
    · rintro ⟨hm, hs⟩
      refine ⟨hm, ?_⟩
      rw [Bool.eq_false_iff]
      intro ht
      exact hs ((hiff idp.2).mp ht)
  · rw [cancelScan]
    simp only [List.mem_map, List.mem_filter]
    constructor
    · rintro ⟨p, ⟨hm, hs⟩, hfst⟩
      refine ⟨p.2, ?_, (hiff p.2).mp hs⟩
      have : (p.1, p.2) = p := Prod.mk.eta
      rw [← hfst, this]
      exact hm
    · rintro ⟨o, hm, hlt⟩
      exact ⟨(i, o), ⟨hm, (hiff o).mpr hlt⟩, rfl⟩

theorem trimOI_fst_suffix (w : ℚ) (ts ss : List ℚ) :
    (trimOI w ts ss).1 <:+ ts := by
  induction ts generalizing ss with
  | nil => simp [trimOI]
  | cons t ts ih =>
      by_cases hcond : w < ts.getLastD t - t
      · rw [trimOI, if_pos hcond]
        exact (ih ss.tail).trans (List.suffix_cons t ts)
      · rw [trimOI, if_neg hcond]

theorem trimOI_span (w : ℚ) (hw : 0 ≤ w) (ts ss : List ℚ) (hne : ts ≠ []) :
    (trimOI w ts ss).1 ≠ [] ∧
    (trimOI w ts ss).1.getLastD 0 - (trimOI w ts ss).1.headD 0 ≤ w := by
  induction ts generalizing ss with
  | nil => exact absurd rfl hne
  | cons t ts ih =>
      by_cases hcond : w < ts.getLastD t - t
      · have hts : ts ≠ [] := by
          intro hnil
          rw [hnil] at hcond
          simp at hcond
          linarith
        rw [trimOI, if_pos hcond]
        exact ih ss.tail hts
      · rw [trimOI, if_neg hcond]
        refine ⟨by simp, ?_⟩
        push_neg at hcond
        rw [List.getLastD_cons, List.headD_cons]
        linarith

theorem trimOI_lengths (w : ℚ) (ts ss : List ℚ) (h : ts.length = ss.length) :
    (trimOI w ts ss).1.length = (trimOI w ts ss).2.length := by
  induction ts generalizing ss with
  | nil => simpa [trimOI] using h
  | cons t ts ih =>
      by_cases hcond : w < ts.getLastD t - t
      · rw [trimOI, if_pos hcond]
        refine ih ss.tail ?_
        have := List.length_tail ss
        simp at h
        omega
      · rw [trimOI, if_neg hcond]
        simpa using h

/-- C5: the order-intensity estimator is inert while the record count is
at most `order_intensity_min_samples` (line 233 uses strict `>`): the
state — estimate included — is unchanged.  Once past the threshold it
evicts from the front while the time span exceeds `time_oi` (the retained
records are a suffix with span `≤ time_oi`), and sets the estimate to
`(sum of sizes / avg_sum_oi) / (time span / avg_time_oi)`. -/
theorem order_intensity_gating (cfg : Cfg) (st : RunState) :
    (st.order_intensity_time_records.length ≤ cfg.order_intensity_min_samples →
      update_order_intensity cfg st = st) ∧
    (cfg.order_intensity_min_samples < st.order_intensity_time_records.length →
      (update_order_intensity cfg st).order_intensity_time_records =
        (trimOI cfg.time_oi st.order_intensity_time_records
          st.order_intensity_size_records).1 ∧
      (update_order_intensity cfg st).order_intensity_size_records =
        (trimOI cfg.time_oi st.order_intensity_time_records
          st.order_intensity_size_records).2 ∧
      (update_order_intensity cfg st).scaled_order_intensity =
        some (((trimOI cfg.time_oi st.order_intensity_time_records
            st.order_intensity_size_records).2.sum / cfg.avg_sum_oi) /
          (((trimOI cfg.time_oi st.order_intensity_time_records
              st.order_intensity_size_records).1.getLastD 0 -
            (trimOI cfg.time_oi st.order_intensity_time_records
              st.order_intensity_size_records).1.headD 0) / cfg.avg_time_oi)) ∧
      (trimOI cfg.time_oi st.order_intensity_time_records
        st.order_intensity_size_records).1 <:+ st.order_intensity_time_records ∧
      (0 ≤ cfg.time_oi →
        (trimOI cfg.time_oi st.order_intensity_time_records
            st.order_intensity_size_records).1.getLastD 0 -
          (trimOI cfg.time_oi st.order_intensity_time_records
            st.order_intensity_size_records).1.headD 0 ≤ cfg.time_oi)) := by
  constructor
  · intro hle
    rw [update_order_intensity, if_neg (not_lt.mpr hle)]
  · intro hgt
    have hne : st.order_intensity_time_records ≠ [] := by
      intro hnil
      rw [hnil] at hgt
      simp at hgt
    refine ⟨?_, ?_, ?_, trimOI_fst_suffix _ _ _, ?_⟩
    · rw [update_order_intensity, if_pos hgt]
    · rw [update_order_intensity, if_pos hgt]
    · rw [update_order_intensity, if_pos hgt]
    · intro hw
      exact (trimOI_span cfg.time_oi hw _ _ hne).2

/-- Exactly `order_intensity_min_samples = 2` records: estimator inert. -/
def st5a : RunState :=
  { st0 with order_intensity_time_records := [1, 2],
             order_intensity_size_records := [5, 6] }

/-- One record past the threshold: an estimate is produced. -/
def st5b : RunState :=
  { st0 with order_intensity_time_records := [1, 2, 3],
             order_intensity_size_records := [5, 6, 7] }

/-- Witness for C5: with `order_intensity_min_samples = 2`, feeding
exactly two records leaves the estimate unset, while three records
produce one. -/
theorem order_intensity_gating_witness :
    (st5a.order_intensity_time_records.length ≤
        cfg0.order_intensity_min_samples ∧
      update_order_intensity cfg0 st5a = st5a) ∧
    (cfg0.order_intensity_min_samples <
        st5b.order_intensity_time_records.length ∧
      (update_order_intensity cfg0 st5b).scaled_order_intensity =
      some (((trimOI cfg0.time_oi st5b.order_intensity_time_records
            st5b.order_intensity_size_records).2.sum / cfg0.avg_sum_oi) /
        (((trimOI cfg0.time_oi st5b.order_intensity_time_records
            st5b.order_intensity_size_records).1.getLastD 0 -
          (trimOI cfg0.time_oi st5b.order_intensity_time_records
            st5b.order_intensity_size_records).1.headD 0) /
            cfg0.avg_time_oi))) := by
  constructor
  · refine ⟨by simp [cfg0, st5a, st0], ?_⟩
    exact (order_intensity_gating cfg0 st5a).1 (by simp [cfg0, st5a, st0])
  · refine ⟨by simp [cfg0, st5b, st0], ?_⟩
    exact ((order_intensity_gating cfg0 st5b).2
      (by simp [cfg0, st5b, st0])).2.2.1

theorem update_volatility_prev_time (cfg : Cfg) (st : RunState)
    (ba ts : ℚ) : (update_volatility cfg st ba ts).prev_time = st.prev_time := rfl

theorem update_order_intensity_prev_time (cfg : Cfg) (st : RunState) :
    (update_order_intensity cfg st).prev_time = st.prev_time := by
  rw [update_order_intensity]
  split <;> rfl

/-- C10: whenever a tick is at least `delay` past the last quote time, the
quote timer `prev_time` is reset to the tick timestamp (line 332) before
the cold-start gate of line 341 is evaluated — even for a cycle whose
quoting step places no orders; and a tick inside the delay window leaves
the state and order flow untouched. -/
theorem quote_timer_reset (cfg : Cfg) (st : RunState) (receive_ts : ℚ) :
    (cfg.delay ≤ receive_ts - st.prev_time →
      (quoteStep cfg st receive_ts).1.prev_time = receive_ts) ∧
    (¬ cfg.delay ≤ receive_ts - st.prev_time →
      quoteStep cfg st receive_ts = (st, [])) := by
  constructor
  · intro hc
    rw [quoteStep, if_pos hc]
    cases hv : (update_order_intensity cfg (update_volatility cfg
        { st with prev_time := receive_ts } st.best_ask receive_ts)).volatility with
    | none =>
        simp only [hv]
        rw [update_order_intensity_prev_time, update_volatility_prev_time]
    | some v =>
        cases ho : (update_order_intensity cfg (update_volatility cfg
            { st with prev_time := receive_ts } st.best_ask receive_ts)).scaled_order_intensity with
        | none =>
            simp only [hv, ho]
            rw [update_order_intensity_prev_time, update_volatility_prev_time]
        | some oi =>
            simp only [hv, ho]
            rw [update_order_intensity_prev_time, update_volatility_prev_time]
  · intro hc
    rw [quoteStep, if_neg hc]

/-- Witness for C10: with `delay = 5` and `prev_time = 0`, the tick at
time 7 resets the timer even though both estimates are missing and no
order is placed, while the tick at time 3 changes nothing. -/
theorem quote_timer_reset_witness :
    (cfg0.delay ≤ 7 - st0.prev_time ∧
      (quoteStep cfg0 st0 7).1.prev_time = 7) ∧
    (¬ cfg0.delay ≤ 3 - st0.prev_time ∧
      quoteStep cfg0 st0 3 = (st0, [])) :=
  ⟨⟨by norm_num [cfg0, st0],
    (quote_timer_reset cfg0 st0 7).1 (by norm_num [cfg0, st0])⟩,
   ⟨by norm_num [cfg0, st0],
    (quote_timer_reset cfg0 st0 3).2 (by norm_num [cfg0, st0])⟩⟩

/-- C8: in a quoting cycle (delay elapsed), the estimators are refreshed
first; if either `self.volatility` or `self.scaled_order_intensity` is
still `None` afterwards, the cycle places no orders (line 341 guards the
entire placement block); once both are set, the cycle places exactly the
paired bid and ask orders. -/
theorem cold_start_gating (cfg : Cfg) (st : RunState) (receive_ts : ℚ)
    (hc : cfg.delay ≤ receive_ts - st.prev_time) :
    ((update_order_intensity cfg (update_volatility cfg
        { st with prev_time := receive_ts } st.best_ask receive_ts)).volatility = none ∨
      (update_order_intensity cfg (update_volatility cfg
        { st with prev_time := receive_ts } st.best_ask receive_ts)).scaled_order_intensity = none →
      (quoteStep cfg st receive_ts).2 = []) ∧
    ((update_order_intensity cfg (update_volatility cfg
        { st with prev_time := receive_ts } st.best_ask receive_ts)).volatility.isSome →
      (update_order_intensity cfg (update_volatility cfg
        { st with prev_time := receive_ts } st.best_ask receive_ts)).scaled_order_intensity.isSome →
      (quoteStep cfg st receive_ts).2.length = 2 ∧
      (quoteStep cfg st receive_ts).2.map Order.side = ["BID", "ASK"]) := by
  constructor
  · intro hnone
    rw [quoteStep, if_pos hc]
    cases hv : (update_order_intensity cfg (update_volatility cfg
        { st with prev_time := receive_ts } st.best_ask receive_ts)).volatility with
    | none => simp only [hv]
    | some v =>
        cases ho : (update_order_intensity cfg (update_volatility cfg
            { st with prev_time := receive_ts } st.best_ask
              receive_ts)).scaled_order_intensity with
        | none => simp only [hv, ho]
        | some oi =>
            exfalso
            rcases hnone with h | h
            · rw [hv] at h; exact Option.noConfusion h
            · rw [ho] at h; exact Option.noConfusion h
  · intro h1 h2
    rw [quoteStep, if_pos hc]
    cases hv : (update_order_intensity cfg (update_volatility cfg
        { st with prev_time := receive_ts } st.best_ask receive_ts)).volatility with
    | none => rw [hv] at h1; exact absurd h1 (by simp)
    | some v =>
        cases ho : (update_order_intensity cfg (update_volatility cfg
            { st with prev_time := receive_ts } st.best_ask
              receive_ts)).scaled_order_intensity with
        | none => rw [ho] at h2; exact absurd h2 (by simp)
        | some oi =>
            simp only [hv, ho]
            exact ⟨rfl, rfl⟩

/-- Witness for C8: at time 7 (delay elapsed) a blank state has
`scaled_order_intensity = None` and the cycle places nothing, while a
state with three order-intensity records past the threshold gets both
estimates and places the bid/ask pair. -/
theorem cold_start_gating_witness :
    (cfg0.delay ≤ 7 - st0.prev_time ∧
      (update_order_intensity cfg0 (update_volatility cfg0
        { st0 with prev_time := 7 } st0.best_ask 7)).scaled_order_intensity = none ∧
      (quoteStep cfg0 st0 7).2 = []) ∧
    (cfg0.delay ≤ 7 - st5b.prev_time ∧
      (update_order_intensity cfg0 (update_volatility cfg0
        { st5b with prev_time := 7 } st5b.best_ask 7)).volatility.isSome ∧
      (update_order_intensity cfg0 (update_volatility cfg0
        { st5b with prev_time := 7 } st5b.best_ask 7)).scaled_order_intensity.isSome ∧
      (quoteStep cfg0 st5b 7).2.length = 2 ∧
      (quoteStep cfg0 st5b 7).2.map Order.side = ["BID", "ASK"]) := by
  have hd0 : cfg0.delay ≤ 7 - st0.prev_time := by norm_num [cfg0, st0]
  have hd5 : cfg0.delay ≤ 7 - st5b.prev_time := by norm_num [cfg0, st5b, st0]
  have hoi0 : (update_order_intensity cfg0 (update_volatility cfg0
      { st0 with prev_time := 7 } st0.best_ask 7)).scaled_order_intensity = none := by
    norm_num [update_order_intensity, update_volatility, cfg0, st0]
  have hv5 : (update_order_intensity cfg0 (update_volatility cfg0
      { st5b with prev_time := 7 } st5b.best_ask 7)).volatility.isSome := by
    norm_num [update_order_intensity, update_volatility, trimOI, cfg0, st5b, st0]
  have hoi5 : (update_order_intensity cfg0 (update_volatility cfg0
      { st5b with prev_time := 7 } st5b.best_ask 7)).scaled_order_intensity.isSome := by
    norm_num [update_order_intensity, update_volatility, trimOI, cfg0, st5b, st0]
  exact ⟨⟨hd0, hoi0, (cold_start_gating cfg0 st0 7 hd0).1 (Or.inr hoi0)⟩,
    ⟨hd5, hv5, hoi5, (cold_start_gating cfg0 st5b 7 hd5).2 hv5 hoi5⟩⟩

/-- The pairing invariant: the two volatility deques have equal length and
the two order-intensity deques have equal length. -/
def dequesBalanced (st : RunState) : Prop :=
  st.volatility_time_records.length = st.volatility_price_records.length ∧
  st.order_intensity_time_records.length = st.order_intensity_size_records.length

theorem applyUpdate_balanced (st : RunState) (u : Update)
    (h : dequesBalanced st) : dequesBalanced (applyUpdate st u) := by
  obtain ⟨h1, h2⟩ := h
  cases u with
  | md bb ba aq bq ts tr =>
      cases tr with
      | none => simp [applyUpdate, dequesBalanced, h1, h2]
      | some p =>
          obtain ⟨tts, tsz⟩ := p
          simp [applyUpdate, dequesBalanced, h1, h2]
  | own t =>
      by_cases hside : t.side = "ASK" <;>
        simp [applyUpdate, dequesBalanced, hside, h1, h2]

theorem update_volatility_balanced (cfg : Cfg) (st : RunState) (ba ts : ℚ)
    (h : dequesBalanced st) : dequesBalanced (update_volatility cfg st ba ts) := by
  obtain ⟨h1, h2⟩ := h
  unfold update_volatility dequesBalanced
  by_cases hcond : cfg.volatility_record_cooldown <
      ts - st.volatility_time_records.getLastD 0 <;>
    simp only [hcond, if_true, if_false] <;>
    refine ⟨?_, h2⟩ <;>
    simp [List.length_drop, h1]

theorem update_order_intensity_balanced (cfg : Cfg) (st : RunState)
    (h : dequesBalanced st) : dequesBalanced (update_order_intensity cfg st) := by
  obtain ⟨h1, h2⟩ := h
  unfold update_order_intensity
  split
  · exact ⟨h1, trimOI_lengths _ _ _ h2⟩
  · exact ⟨h1, h2⟩

theorem quoteStep_balanced (cfg : Cfg) (st : RunState) (ts : ℚ)
    (h : dequesBalanced st) : dequesBalanced ((quoteStep cfg st ts).1) := by
  rw [quoteStep]
  by_cases hc : cfg.delay ≤ ts - st.prev_time
  · rw [if_pos hc]
    have hb : dequesBalanced (update_order_intensity cfg (update_volatility cfg
        { st with prev_time := ts } st.best_ask ts)) :=
      update_order_intensity_balanced _ _
        (update_volatility_balanced _ _ _ _ ⟨h.1, h.2⟩)
    cases hv : (update_order_intensity cfg (update_volatility cfg
        { st with prev_time := ts } st.best_ask ts)).volatility with
    | none => simpa only [hv] using hb
    | some v =>
        cases ho : (update_order_intensity cfg (update_volatility cfg
            { st with prev_time := ts } st.best_ask ts)).scaled_order_intensity with
        | none => simpa only [hv, ho] using hb
        | some oi =>
            simp only [hv, ho]
            exact ⟨hb.1, hb.2⟩
  · rw [if_neg hc]
    exact h

theorem foldl_applyUpdate_balanced (updates : List Update) (st : RunState)
    (h : dequesBalanced st) : dequesBalanced (updates.foldl applyUpdate st) := by
  induction updates generalizing st with
  | nil => exact h
  | cons u us ih => exact ih _ (applyUpdate_balanced _ _ h)

/-- C9: every operation of the strategy appends to or pops from both
members of a deque pair together, so the volatility deques stay equal in
length and the order-intensity deques stay equal in length — through any
single update, either estimator refresh, and a whole tick of `run`. -/
theorem paired_deques_equal_length (cfg : Cfg) (st : RunState) (u : Update)
    (ba ts : ℚ) (updates : List Update) (h : dequesBalanced st) :
    dequesBalanced (applyUpdate st u) ∧
    dequesBalanced (update_volatility cfg st ba ts) ∧
    dequesBalanced (update_order_intensity cfg st) ∧
    dequesBalanced ((tickStep cfg st ts updates).1) := by
  refine ⟨applyUpdate_balanced st u h, update_volatility_balanced cfg st ba ts h,
    update_order_intensity_balanced cfg st h, ?_⟩
  have hq := quoteStep_balanced cfg (updates.foldl applyUpdate st) ts
    (foldl_applyUpdate_balanced updates st h)
  exact ⟨hq.1, hq.2⟩

/-- Witness for C9 at the blank state, a market-data update carrying a
trade, and a one-update tick. -/
theorem paired_deques_equal_length_witness :
    dequesBalanced st0 ∧
    (dequesBalanced (applyUpdate st0 (Update.md 100 102 1 1 5 (some (5, 2)))) ∧
     dequesBalanced (update_volatility cfg0 st0 102 5) ∧
     dequesBalanced (update_order_intensity cfg0 st0) ∧
     dequesBalanced ((tickStep cfg0 st0 5 [Update.md 100 102 1 1 5 none]).1)) :=
  ⟨⟨rfl, rfl⟩,
   paired_deques_equal_length cfg0 st0 (Update.md 100 102 1 1 5 (some (5, 2)))
     102 5 [Update.md 100 102 1 1 5 none] ⟨rfl, rfl⟩⟩

/-- C6: an own-trade execution (lines 303–320) updates the positions with
sign depending on side (`ASK`: asset decreases by the size, usd increases
by the notional; `BID`: the reverse), removes the order from
`ongoing_orders` if present, adds the notional to `total_liq`, and
recomputes `pnl` from the updated positions and the current mid-price,
which the trade itself does not change. -/
theorem own_trade_effects (st : RunState) (t : OwnTrade) :
    (applyUpdate st (Update.own t)).midprice = st.midprice ∧
    (t.side = "ASK" →
      (applyUpdate st (Update.own t)).asset_position = st.asset_position - t.size ∧
      (applyUpdate st (Update.own t)).usd_position =
        st.usd_position + t.size * t.price) ∧
    (t.side = "BID" →
      (applyUpdate st (Update.own t)).asset_position = st.asset_position + t.size ∧
      (applyUpdate st (Update.own t)).usd_position =
        st.usd_position - t.size * t.price) ∧
    (applyUpdate st (Update.own t)).ongoing_orders =
      st.ongoing_orders.filter (fun p => decide (p.1 ≠ t.order_id)) ∧
    (applyUpdate st (Update.own t)).total_liq = st.total_liq + t.size * t.price ∧
    (applyUpdate st (Update.own t)).pnl =
      (applyUpdate st (Update.own t)).asset_position * st.midprice +
        (applyUpdate st (Update.own t)).usd_position := by
  by_cases hside : t.side = "ASK"
  · refine ⟨by simp [applyUpdate, hside], fun _ => ?_, fun hbid => ?_, ?_, ?_, ?_⟩
    · exact ⟨by simp [applyUpdate, hside], by simp [applyUpdate, hside]⟩
    · rw [hbid] at hside; simp at hside
    · simp [applyUpdate, hside]
    · simp [applyUpdate, hside]
    · simp [applyUpdate, hside]
  · refine ⟨by simp [applyUpdate, hside], fun hask => absurd hask hside,
      fun _ => ?_, ?_, ?_, ?_⟩
    · exact ⟨by simp [applyUpdate, hside], by simp [applyUpdate, hside]⟩
    · simp [applyUpdate, hside]
    · simp [applyUpdate, hside]
    · simp [applyUpdate, hside]

/-- The state in the spec's end-to-end scenario: mid-price 101. -/
def st6 : RunState := { st0 with midprice := 101 }

/-- The spec's own-trade: side ASK, size 1, price 102. -/
def tr6 : OwnTrade := ⟨1, "ASK", 102, 1, 5⟩

/-- Witness for C6: the spec scenario — a single own-trade of side ASK,
size 1, price 102 takes the blank state to `asset_position = −1`,
`usd_position = +102`, `pnl = −1·midprice + 102`. -/
theorem own_trade_effects_witness :
    tr6.side = "ASK" ∧
    (applyUpdate st6 (Update.own tr6)).asset_position = -1 ∧
    (applyUpdate st6 (Update.own tr6)).usd_position = 102 ∧
    (applyUpdate st6 (Update.own tr6)).pnl = -1 * 101 + 102 := by
  have h := own_trade_effects st6 tr6
  have ha : (applyUpdate st6 (Update.own tr6)).asset_position = -1 := by
    rw [(h.2.1 rfl).1]; norm_num [st6, st0, tr6]
  have hu : (applyUpdate st6 (Update.own tr6)).usd_position = 102 := by
    rw [(h.2.1 rfl).2]; norm_num [st6, st0, tr6]
  refine ⟨rfl, ha, hu, ?_⟩
  rw [h.2.2.2.2.2, ha, hu]
  norm_num [st6, st0]

/-- C3 counterexample: a market-data update at time 5 (cooldown 10, no
prior sample, best ask 102) makes `run` (lines 293–296) append the
mid-price 101 to the volatility price deque unconditionally — the
retained price is not the best-ask sample and the cooldown had not
elapsed. -/
theorem volatility_deque_counterexample :
    (applyUpdate st0 (Update.md 100 102 1 1 5 none)).volatility_price_records =
      [101] ∧
    (101 : ℚ) ≠ 102 ∧
    ¬ (cfg0.volatility_record_cooldown <
        5 - st0.volatility_time_records.getLastD 0) := by
  refine ⟨?_, by norm_num, by norm_num [cfg0, st0]⟩
  norm_num [applyUpdate, st0]

/-- C3 (amended): the volatility price deque receives the current
mid-price on every market-data update unconditionally (lines 293–296),
and additionally the sampled best ask inside `update_volatility` when the
cooldown has elapsed since the last recorded sample; at most
`volatility_horizon` samples are retained when the estimate is computed,
and the estimate equals the squared population standard deviation of the
retained prices divided by `avg_volatility`. -/
theorem volatility_records_amended (cfg : Cfg) (st : RunState)
    (bb ba aq bq ts : ℚ)
    (h : st.volatility_time_records.length = st.volatility_price_records.length) :
    (applyUpdate st (Update.md bb ba aq bq ts none)).volatility_price_records =
      st.volatility_price_records ++ [(ba + bb) / 2] ∧
    (applyUpdate st (Update.md bb ba aq bq ts none)).volatility_time_records =
      st.volatility_time_records ++ [ts] ∧
    (cfg.volatility_record_cooldown <
        ts - st.volatility_time_records.getLastD 0 →
      (update_volatility cfg st ba ts).volatility_price_records =
        (st.volatility_price_records ++ [ba]).drop
          ((st.volatility_time_records ++ [ts]).length - cfg.volatility_horizon)) ∧
    (¬ cfg.volatility_record_cooldown <
        ts - st.volatility_time_records.getLastD 0 →
      (update_volatility cfg st ba ts).volatility_price_records =
        st.volatility_price_records.drop
          (st.volatility_time_records.length - cfg.volatility_horizon)) ∧
    (update_volatility cfg st ba ts).volatility_price_records.length ≤
      cfg.volatility_horizon ∧
    (update_volatility cfg st ba ts).volatility =
      some (popVar (update_volatility cfg st ba ts).volatility_price_records /
        cfg.avg_volatility) := by
  refine ⟨by simp [applyUpdate], by simp [applyUpdate], ?_, ?_, ?_, rfl⟩
  · intro hc
    rw [update_volatility]
    simp only [if_pos hc]
  · intro hc
    rw [update_volatility]
    simp only [if_neg hc]
  · by_cases hc : cfg.volatility_record_cooldown <
        ts - st.volatility_time_records.getLastD 0
    · rw [update_volatility]
      simp only [if_pos hc]
      simp only [List.length_drop, List.length_append, List.length_cons,
        List.length_nil]
      omega
    · rw [update_volatility]
      simp only [if_neg hc]
      simp only [List.length_drop]
      omega

/-- Witness for the amended C3 at the blank state: the cooldown has not
elapsed, nothing is appended by `update_volatility`, the retained count is
within the horizon, and the estimate is set from the retained prices. -/
theorem volatility_records_amended_witness :
    st0.volatility_time_records.length = st0.volatility_price_records.length ∧
    ¬ (cfg0.volatility_record_cooldown <
        5 - st0.volatility_time_records.getLastD 0) ∧
    (update_volatility cfg0 st0 102 5).volatility_price_records =
      st0.volatility_price_records.drop
        (st0.volatility_time_records.length - cfg0.volatility_horizon) ∧
    (update_volatility cfg0 st0 102 5).volatility_price_records.length ≤
      cfg0.volatility_horizon ∧
    (update_volatility cfg0 st0 102 5).volatility =
      some (popVar (update_volatility cfg0 st0 102 5).volatility_price_records /
        cfg0.avg_volatility) := by
  have hn : ¬ (cfg0.volatility_record_cooldown <
      5 - st0.volatility_time_records.getLastD 0) := by norm_num [cfg0, st0]
  have h := volatility_records_amended cfg0 st0 100 102 1 1 5 rfl
  exact ⟨rfl, hn, h.2.2.2.1 hn, h.2.2.2.2.1, h.2.2.2.2.2⟩
